import Mathlib

set_option maxHeartbeats 1000000

namespace CVSpec

/-! Character-level model of the Python regular-expression primitives used by
`normalize_skills.py` (and the identical inline copy in the app module):
word characters, the word-boundary assertion, whole-word search
(`re.search` of an escaped literal wrapped in boundary assertions) and
whole-word replace-all (`re.sub`).  Text is modelled as `List Char`. -/

def isWordChar (c : Char) : Bool := c.isAlphanum || c == '_'

def optWord : Option Char → Bool
  | none => false
  | some c => isWordChar c

def bdryOk (a b : Option Char) : Bool := optWord a != optWord b

def lowL (l : List Char) : List Char := l.map Char.toLower

def matchesAt : List Char → List Char → Bool
  | [], _ => true
  | _ :: _, [] => false
  | a :: ps, b :: ts => a == b && matchesAt ps ts

def wwAt (p : List Char) (prev : Option Char) (t : List Char) : Bool :=
  match p with
  | [] => bdryOk prev t.head?
  | _ :: _ =>
      matchesAt p t && bdryOk prev t.head? &&
        bdryOk p.getLast? (List.head? (List.drop p.length t))

def searchAux (p : List Char) : Option Char → List Char → Bool
  | prev, [] => wwAt p prev []
  | prev, x :: xs => wwAt p prev (x :: xs) || searchAux p (some x) xs

def searchWW (p t : List Char) : Bool := searchAux p none t

def subAux (p rep : List Char) : Nat → Option Char → List Char → List Char
  | 0, _, _ => []
  | _ + 1, prev, [] => if wwAt p prev [] then rep else []
  | fuel + 1, prev, x :: xs =>
    if wwAt p prev (x :: xs) then
      match p with
      | [] => rep ++ x :: subAux p rep fuel (some x) xs
      | q :: qs =>
          rep ++ subAux p rep fuel ((q :: qs).getLast?) (List.drop (q :: qs).length (x :: xs))
    else x :: subAux p rep fuel (some x) xs

def subWW (p rep t : List Char) : List Char := subAux p rep (t.length + 1) none t

/-! The skill normalizer of `normalize_skills.py`.  A SkillMap is an ordered
association list (canonical term, synonym list), mirroring the ordered
Python dict.  The detected set is a `Finset` since Python uses a set. -/

abbrev SkillMap := List (List Char × List (List Char))

structure NormSt where
  text : List Char
  det : Finset (List Char)

def procSyn (canonical : List Char) (st : NormSt) (syn : List Char) : NormSt :=
  let pat := lowL syn
  if searchWW pat st.text then
    { text := subWW pat (lowL canonical) st.text, det := insert (lowL canonical) st.det }
  else st

def procEntry (st : NormSt) (entry : List Char × List (List Char)) : NormSt :=
  let st1 := entry.2.foldl (procSyn entry.1) st
  if searchWW (lowL entry.1) st1.text then
    { st1 with det := insert (lowL entry.1) st1.det }
  else st1

def normalize_text (text : List Char) (skills_map : SkillMap) :
    List Char × Finset (List Char) :=
  let fin := skills_map.foldl procEntry { text := lowL text, det := ∅ }
  (fin.text, fin.det)

/-- Shallow embedding of `_safe_load_skills_map` in `jd_parser.py`: loading
wraps the fallible file read (modelled as an `Except`); a missing file
(`FileNotFoundError`) is caught and replaced by the empty map. -/
def _safe_load_skills_map (r : Except Unit SkillMap) : SkillMap :=
  match r with
  | Except.ok m => m
  | Except.error _ => []

/-! Keyword extractor of `jd_parser.py` (`_top_keywords`, identical inline
copy in the app module).  `re.findall` of a character class with a length
bound extracts the maximal runs of class characters, keeping runs of
length at least 3; the frequency table is an insertion-ordered association
list mirroring the insertion-ordered Python dict, and the sort is the
stable descending-by-count sort that `sorted(key = minus count)` performs. -/

def isTokChar (c : Char) : Bool := c.isAlphanum || c == '+' || c == '#' || c == '.'

def runsAux : List Char → List Char → List (List Char)
  | cur, [] => if cur.isEmpty then [] else [cur.reverse]
  | cur, c :: cs =>
    if isTokChar c then runsAux (c :: cur) cs
    else if cur.isEmpty then runsAux [] cs
    else cur.reverse :: runsAux [] cs

def maxRuns (l : List Char) : List (List Char) := runsAux [] l

def findallTokens (t : List Char) : List (List Char) :=
  (maxRuns (lowL t)).filter (fun r => 3 ≤ r.length)

def _STOPWORDS : List (List Char) :=
  ["the", "and", "or", "to", "of", "in", "on", "for", "with", "a", "an", "by", "as",
   "is", "are", "be", "will", "this", "that", "we", "you", "our", "your", "at", "from",
   "across", "including", "such", "etc", "about", "into", "within", "over", "under",
   "more", "most", "least", "ability", "experience", "years", "year", "plus", "etc.",
   "responsibilities", "requirements", "preferred", "must", "nice", "have", "skills",
   "role", "job", "description", "position", "candidate", "ideal", "work",
   "working"].map String.toList

def bump : List (List Char × Nat) → List Char → List (List Char × Nat)
  | [], w => [(w, 1)]
  | (u, c) :: rest, w => if u = w then (u, c + 1) :: rest else (u, c) :: bump rest w

def freqOf (ws : List (List Char)) : List (List Char × Nat) :=
  ws.foldl (fun acc w => if w ∈ _STOPWORDS then acc else bump acc w) []

/-- Stable insertion into a list sorted by key descending: the new element
goes in front of the first element whose key is less than or equal to its
own, so earlier elements win ties — the behaviour of Python's stable
`sort(key, reverse = True)`. -/
def insertD {α β : Type} [LinearOrder β] (f : α → β) (a : α) : List α → List α
  | [] => [a]
  | b :: bs => if f b ≤ f a then a :: b :: bs else b :: insertD f a bs

def sortD {α β : Type} [LinearOrder β] (f : α → β) : List α → List α
  | [] => []
  | a :: as => insertD f a (sortD f as)

def _top_keywords (text : List Char) (n : Nat) : List (List Char) :=
  ((sortD (fun p => p.2) (freqOf (findallTokens text))).take n).map Prod.fst

/-- First-seen deduplication of a list: keeps the first occurrence of every
element, in order of first appearance. -/
def fsd {α : Type} [DecidableEq α] : List α → List α
  | [] => []
  | a :: as => a :: (fsd as).filter (fun b => decide (b ≠ a))

/-- Pair each list element with its position, starting at a given index. -/
def enumF {α : Type} : Nat → List α → List (α × Nat)
  | _, [] => []
  | n, a :: as => (a, n) :: enumF (n + 1) as

/-! Snippet retriever of the app module: `_overlap_score` and the re-ranking
in `query_snippets`.  The external Chroma index call is modelled by a
`QueryRes` record holding the documents, metadata and distances the vector
index returned, in index order; distances and scores are rationals. -/

structure SnipMeta where
  tags : List String
  seniority : String

structure QueryRes where
  docs : List String
  metas : List SnipMeta
  dists : List ℚ

def _overlap_score (snippet_meta : SnipMeta) (jd_skills : Finset String) : ℚ :=
  let tags : Finset String := (snippet_meta.tags.map String.toLower).toFinset
  let inter : Nat := (tags ∩ jd_skills).card
  let uni : Nat := (tags ∪ jd_skills).card
  (inter : ℚ) / (if uni = 0 then 1 else (uni : ℚ))

def realDists (res : QueryRes) : List ℚ :=
  if res.dists.isEmpty then List.replicate res.docs.length 1 else res.dists

def baseScores (res : QueryRes) : List ℚ :=
  (realDists res).map (fun d => 1 / (1 + d))

def skillsArg (jd_skills : Option (Finset String)) : Finset String :=
  (jd_skills.getD ∅).image String.toLower

def boostedOf (res : QueryRes) (jd_skills : Option (Finset String)) :
    List (String × SnipMeta × ℚ) :=
  (res.docs.zip (res.metas.zip (baseScores res))).map
    (fun z => (z.1, z.2.1, z.2.2 + (1 / 4) * _overlap_score z.2.1 (skillsArg jd_skills)))

def rankedOf (res : QueryRes) (jd_skills : Option (Finset String)) :
    List (String × SnipMeta × ℚ) :=
  sortD (fun b => b.2.2) (boostedOf res jd_skills)

def query_snippets (res : QueryRes) (jd_skills : Option (Finset String))
    (top_k : Nat) : List String :=
  ((rankedOf res jd_skills).take top_k).map (fun b => b.1)

/-! Auxiliary definitions used by the verification. -/

/-- The "strictly ranks ahead" relation on position-annotated elements:
either a strictly larger key, or an equal key and an earlier original
position.  A list pairwise-ordered by this relation is sorted descending
with ties in original order. -/
def lexAfter {α β : Type} [LinearOrder β] (f : α → β) (p q : α × Nat) : Prop :=
  f q.1 < f p.1 ∨ (f p.1 = f q.1 ∧ p.2 < q.2)

/-- Association-list lookup of a token's count, with default 0. -/
def lookupC : List (List Char × Nat) → List Char → Nat
  | [], _ => 0
  | (u, c) :: rest, w => if u = w then c else lookupC rest w

/-- The token stream with stopwords removed. -/
def nonstopWords (ws : List (List Char)) : List (List Char) :=
  ws.filter (fun w => decide (w ∉ _STOPWORDS))

/-- A character list is already fully lower-cased. -/
def IsLowL (l : List Char) : Prop := ∀ c ∈ l, c.toLower = c

/-! Generic lemmas about the stable descending insertion sort. -/

theorem mem_insertD {α β : Type} [LinearOrder β] (f : α → β) (a x : α)
    (l : List α) : x ∈ insertD f a l ↔ x = a ∨ x ∈ l := by
  induction l with
  | nil => simp [insertD]
  | cons b bs ih =>
    simp only [insertD]
    split
    · simp [List.mem_cons]
    · simp only [List.mem_cons, ih]
      tauto

theorem insertD_perm {α β : Type} [LinearOrder β] (f : α → β) (a : α)
    (l : List α) : (insertD f a l).Perm (a :: l) := by
  induction l with
  | nil => simp [insertD]
  | cons b bs ih =>
    simp only [insertD]
    split
    · exact List.Perm.refl _
    · exact (ih.cons b).trans (List.Perm.swap a b bs)

theorem sortD_perm {α β : Type} [LinearOrder β] (f : α → β) (l : List α) :
    (sortD f l).Perm l := by
  induction l with
  | nil => exact List.Perm.refl _
  | cons a as ih => exact (insertD_perm f a (sortD f as)).trans (ih.cons a)

theorem pairwise_insertD {α β : Type} [LinearOrder β] (f : α → β) (a : α)
    (l : List α) (hl : l.Pairwise (fun x y => f y ≤ f x)) :
    (insertD f a l).Pairwise (fun x y => f y ≤ f x) := by
  induction l with
  | nil => simp [insertD]
  | cons b bs ih =>
    rw [List.pairwise_cons] at hl
    obtain ⟨hb, hbs⟩ := hl
    simp only [insertD]
    split
    next hba =>
      refine List.pairwise_cons.mpr ⟨?_, List.pairwise_cons.mpr ⟨hb, hbs⟩⟩
      intro y hy
      rcases List.mem_cons.mp hy with rfl | hy
      · exact hba
      · exact le_trans (hb y hy) hba
    next hba =>
      have hab : f a ≤ f b := le_of_not_le hba
      refine List.pairwise_cons.mpr ⟨?_, ih hbs⟩
      intro y hy
      rcases (mem_insertD f a y bs).mp hy with rfl | hy
      · exact hab
      · exact hb y hy

theorem sortD_pairwise {α β : Type} [LinearOrder β] (f : α → β) (l : List α) :
    (sortD f l).Pairwise (fun x y => f y ≤ f x) := by
  induction l with
  | nil => simp [sortD]
  | cons a as ih => exact pairwise_insertD f a (sortD f as) ih

theorem insertD_map_fst {α β γ : Type} [LinearOrder γ] (f : α → γ)
    (p : α × β) (l : List (α × β)) :
    (insertD (fun q => f q.1) p l).map Prod.fst = insertD f p.1 (l.map Prod.fst) := by
  induction l with
  | nil => simp [insertD]
  | cons b bs ih =>
    by_cases h : f b.1 ≤ f p.1
    · simp [insertD, h]
    · simp [insertD, h, ih]

theorem sortD_enum_map {α γ : Type} [LinearOrder γ] (f : α → γ) (l : List α) :
    ∀ n, (sortD (fun q => f q.1) (enumF n l)).map Prod.fst = sortD f l := by
  induction l with
  | nil => intro n; rfl
  | cons a as ih =>
    intro n
    simp only [enumF, sortD, insertD_map_fst, ih]

theorem enumF_ge {α : Type} (l : List α) : ∀ (n : Nat) (q : α × Nat),
    q ∈ enumF n l → n ≤ q.2 := by
  induction l with
  | nil => intro n q hq; simp [enumF] at hq
  | cons a as ih =>
    intro n q hq
    rcases List.mem_cons.mp hq with rfl | hq
    · exact Nat.le_refl n
    · exact Nat.le_of_succ_le (ih (n + 1) q hq)

theorem insertD_lex {α β : Type} [LinearOrder β] (f : α → β) (p : α × Nat)
    (m : List (α × Nat)) (hidx : ∀ r ∈ m, p.2 < r.2)
    (hm : m.Pairwise (lexAfter f)) :
    (insertD (fun q => f q.1) p m).Pairwise (lexAfter f) := by
  induction m with
  | nil => simp [insertD]
  | cons b bs ih =>
    rw [List.pairwise_cons] at hm
    obtain ⟨hb, hbs⟩ := hm
    simp only [insertD]
    split
    next h =>
      refine List.pairwise_cons.mpr ⟨?_, List.pairwise_cons.mpr ⟨hb, hbs⟩⟩
      intro r hr
      rcases List.mem_cons.mp hr with rfl | hr
      · rcases lt_or_eq_of_le h with hlt | heq
        · exact Or.inl hlt
        · exact Or.inr ⟨heq.symm, hidx r (List.mem_cons_self r bs)⟩
      · have h1 : f r.1 ≤ f b.1 := by
          rcases hb r hr with h' | ⟨h', _⟩
          · exact le_of_lt h'
          · exact le_of_eq h'.symm
        rcases lt_or_eq_of_le (le_trans h1 h) with hlt | heq
        · exact Or.inl hlt
        · exact Or.inr ⟨heq.symm, hidx r (List.mem_cons_of_mem b hr)⟩
    next h =>
      have hpb : f p.1 < f b.1 := lt_of_not_le h
      refine List.pairwise_cons.mpr
        ⟨?_, ih (fun r hr => hidx r (List.mem_cons_of_mem b hr)) hbs⟩
      intro r hr
      rcases (mem_insertD _ p r bs).mp hr with rfl | hr
      · exact Or.inl hpb
      · exact hb r hr

theorem sortD_enum_lex {α β : Type} [LinearOrder β] (f : α → β) (l : List α) :
    ∀ n, (sortD (fun q => f q.1) (enumF n l)).Pairwise (lexAfter f) := by
  induction l with
  | nil => intro n; simp [enumF, sortD]
  | cons a as ih =>
    intro n
    simp only [enumF, sortD]
    apply insertD_lex
    · intro r hr
      have hr' : r ∈ enumF (n + 1) as :=
        ((sortD_perm (fun q => f q.1) (enumF (n + 1) as)).mem_iff).mp hr
      have := enumF_ge as (n + 1) r hr'
      omega
    · exact ih (n + 1)

/-! Lemmas about the insertion-ordered frequency table. -/

theorem keysL_bump (l : List (List Char × Nat)) (w : List Char) :
    (bump l w).map Prod.fst =
      if w ∈ l.map Prod.fst then l.map Prod.fst else l.map Prod.fst ++ [w] := by
  induction l with
  | nil => simp [bump]
  | cons p rest ih =>
    obtain ⟨u, c⟩ := p
    by_cases h : u = w
    · subst h
      simp [bump]
    · simp only [bump, if_neg h, List.map_cons]
      rw [ih]
      by_cases hw : w ∈ rest.map Prod.fst
      · simp [hw, Ne.symm h]
      · simp [hw, Ne.symm h]

theorem lookupC_bump (l : List (List Char × Nat)) (w v : List Char) :
    lookupC (bump l w) v = lookupC l v + (if v = w then 1 else 0) := by
  induction l with
  | nil =>
    simp only [bump, lookupC]
    by_cases h : v = w
    · simp [h]
    · simp [h, Ne.symm h]
  | cons p rest ih =>
    obtain ⟨u, c⟩ := p
    by_cases huw : u = w
    · subst huw
      by_cases hv : u = v
      · subst hv
        simp [bump, lookupC]
      · simp [bump, lookupC, hv, Ne.symm hv, fun h => hv (Eq.symm h)]
    · simp only [bump, if_neg huw, lookupC]
      by_cases hv : u = v
      · subst hv
        simp [lookupC, huw]
      · simp [lookupC, hv, ih]

theorem lookup_foldl_bump (ws : List (List Char)) :
    ∀ (acc : List (List Char × Nat)) (v : List Char),
      lookupC (ws.foldl bump acc) v = lookupC acc v + ws.count v := by
  induction ws with
  | nil => intro acc v; simp
  | cons w ws ih =>
    intro acc v
    simp only [List.foldl_cons, ih, lookupC_bump, List.count_cons]
    by_cases h : v = w
    · subst h
      simp
      omega
    · simp [h, Ne.symm h]

theorem freqOf_eq (ws : List (List Char)) :
    ∀ acc : List (List Char × Nat),
      ws.foldl (fun acc w => if w ∈ _STOPWORDS then acc else bump acc w) acc
        = (ws.filter (fun w => decide (w ∉ _STOPWORDS))).foldl bump acc := by
  induction ws with
  | nil => intro acc; rfl
  | cons w ws ih =>
    intro acc
    by_cases h : w ∈ _STOPWORDS
    · simp [h, ih]
    · simp [h, ih]

theorem keys_fold_bump (ws : List (List Char)) :
    ∀ acc : List (List Char × Nat),
      (ws.foldl bump acc).map Prod.fst
        = acc.map Prod.fst
            ++ (fsd ws).filter (fun v => decide (v ∉ acc.map Prod.fst)) := by
  induction ws with
  | nil => intro acc; simp [fsd]
  | cons w ws ih =>
    intro acc
    simp only [List.foldl_cons, ih, fsd]
    by_cases h : w ∈ acc.map Prod.fst
    · rw [keysL_bump, if_pos h]
      rw [List.filter_cons_of_neg (by simp [h])]
      congr 1
      rw [List.filter_filter]
      apply List.filter_congr
      intro a _
      by_cases ha : a ∈ acc.map Prod.fst
      · simp [ha]
      · have : a ≠ w := fun hh => ha (hh ▸ h)
        simp [ha, this]
    · rw [keysL_bump, if_neg h]
      rw [List.filter_cons_of_pos (by simp [h])]
      rw [List.append_assoc, List.singleton_append]
      congr 2
      rw [List.filter_filter]
      apply List.filter_congr
      intro a _
      by_cases ha : a ∈ acc.map Prod.fst
      · simp [ha]
      · by_cases haw : a = w
        · subst haw
          simp [ha]
        · simp [ha, haw]

theorem keys_freqOf (ws : List (List Char)) :
    (freqOf ws).map Prod.fst = fsd (nonstopWords ws) := by
  unfold freqOf
  rw [freqOf_eq, keys_fold_bump]
  simp [nonstopWords]

theorem fsd_subset {α : Type} [DecidableEq α] (l : List α) :
    ∀ x ∈ fsd l, x ∈ l := by
  induction l with
  | nil => simp [fsd]
  | cons a as ih =>
    intro x hx
    simp only [fsd] at hx
    rcases List.mem_cons.mp hx with rfl | hx
    · exact List.mem_cons_self x as
    · exact List.mem_cons_of_mem a (ih x (List.mem_of_mem_filter hx))

theorem fsd_nodup {α : Type} [DecidableEq α] (l : List α) : (fsd l).Nodup := by
  induction l with
  | nil => simp [fsd]
  | cons a as ih =>
    simp only [fsd]
    refine List.nodup_cons.mpr ⟨?_, List.Nodup.filter _ ih⟩
    intro ha
    have := List.of_mem_filter ha
    simp at this

theorem mem_lookupC (l : List (List Char × Nat)) (hnd : (l.map Prod.fst).Nodup)
    (w : List Char) (c : Nat) (h : (w, c) ∈ l) : lookupC l w = c := by
  induction l with
  | nil => simp at h
  | cons p rest ih =>
    obtain ⟨u, d⟩ := p
    rw [List.map_cons, List.nodup_cons] at hnd
    obtain ⟨hu, hrest⟩ := hnd
    rcases List.mem_cons.mp h with heq | h
    · injection heq with h1 h2
      subst h1
      subst h2
      simp [lookupC]
    · have hw : w ∈ rest.map Prod.fst := by
        have := List.mem_map_of_mem Prod.fst h
        simpa using this
      by_cases huw : u = w
      · subst huw
        exact absurd hw hu
      · simp [lookupC, huw, ih hrest h]

theorem freqOf_counts (ws : List (List Char)) (p : List Char × Nat)
    (hp : p ∈ freqOf ws) : p.2 = (nonstopWords ws).count p.1 := by
  have hkeys : ((freqOf ws).map Prod.fst).Nodup := by
    rw [keys_freqOf]
    exact fsd_nodup _
  obtain ⟨w, c⟩ := p
  have hl : lookupC (freqOf ws) w = c := mem_lookupC _ hkeys w c hp
  have hcount : lookupC (freqOf ws) w = lookupC [] w + (nonstopWords ws).count w := by
    unfold freqOf
    rw [freqOf_eq]
    exact lookup_foldl_bump _ [] w
  simp only [lookupC] at hcount
  simp only []
  omega

/-! Lemmas about the skill normalizer. -/

theorem toNat_ofNat_valid (n : Nat) (h : n.isValidChar) : (Char.ofNat n).toNat = n := by
  simp [Char.ofNat, h, Char.ofNatAux, Char.toNat, UInt32.toNat, BitVec.toNat_ofNatLt]

theorem toLower_eq_self (c : Char) (h : ¬(65 ≤ c.toNat ∧ c.toNat ≤ 90)) :
    c.toLower = c := by
  simp only [Char.toLower]
  split
  · omega
  · rfl

theorem toLower_idem (c : Char) : c.toLower.toLower = c.toLower := by
  by_cases h : 65 ≤ c.toNat ∧ c.toNat ≤ 90
  · have hval : (c.toNat + 32).isValidChar := by
      left
      omega
    have hlow : c.toLower = Char.ofNat (c.toNat + 32) := by
      simp only [Char.toLower]
      split
      · rfl
      · omega
    rw [hlow]
    apply toLower_eq_self
    rw [toNat_ofNat_valid _ hval]
    omega
  · rw [toLower_eq_self c h]
    exact toLower_eq_self c h

theorem isLowL_lowL (l : List Char) : IsLowL (lowL l) := by
  intro c hc
  rw [lowL] at hc
  obtain ⟨d, _, rfl⟩ := List.mem_map.mp hc
  exact toLower_idem d

theorem lowL_eq_self (l : List Char) (h : IsLowL l) : lowL l = l := by
  unfold lowL
  induction l with
  | nil => rfl
  | cons c cs ih =>
    rw [List.map_cons, h c (List.mem_cons_self c cs),
      ih (fun d hd => h d (List.mem_cons_of_mem c hd))]

theorem mem_subAux (p rep : List Char) :
    ∀ (fuel : Nat) (prev : Option Char) (t : List Char) (c : Char),
      c ∈ subAux p rep fuel prev t → c ∈ t ∨ c ∈ rep := by
  intro fuel
  induction fuel with
  | zero =>
    intro prev t c hc
    simp [subAux] at hc
  | succ fuel ih =>
    intro prev t c hc
    cases t with
    | nil =>
      simp only [subAux] at hc
      split at hc
      · exact Or.inr hc
      · simp at hc
    | cons x xs =>
      cases p with
      | nil =>
        simp only [subAux] at hc
        split at hc
        · rcases List.mem_append.mp hc with hr | hx
          · exact Or.inr hr
          · rcases List.mem_cons.mp hx with rfl | hx
            · exact Or.inl (List.mem_cons_self c xs)
            · rcases ih (some x) xs c hx with h1 | h2
              · exact Or.inl (List.mem_cons_of_mem x h1)
              · exact Or.inr h2
        · rcases List.mem_cons.mp hc with rfl | hx
          · exact Or.inl (List.mem_cons_self c xs)
          · rcases ih (some x) xs c hx with h1 | h2
            · exact Or.inl (List.mem_cons_of_mem x h1)
            · exact Or.inr h2
      | cons q qs =>
        simp only [subAux] at hc
        split at hc
        · rcases List.mem_append.mp hc with hr | hx
          · exact Or.inr hr
          · rcases ih ((q :: qs).getLast?) (List.drop (q :: qs).length (x :: xs)) c hx with h1 | h2
            · exact Or.inl (List.mem_of_mem_drop h1)
            · exact Or.inr h2
        · rcases List.mem_cons.mp hc with rfl | hx
          · exact Or.inl (List.mem_cons_self c xs)
          · rcases ih (some x) xs c hx with h1 | h2
            · exact Or.inl (List.mem_cons_of_mem x h1)
            · exact Or.inr h2

theorem isLowL_subWW (p rep t : List Char) (ht : IsLowL t) (hrep : IsLowL rep) :
    IsLowL (subWW p rep t) := by
  intro c hc
  rcases mem_subAux p rep (t.length + 1) none t c hc with h | h
  · exact ht c h
  · exact hrep c h

theorem procSyn_text_isLow (canonical : List Char) (st : NormSt) (syn : List Char)
    (h : IsLowL st.text) : IsLowL (procSyn canonical st syn).text := by
  simp only [procSyn]
  split
  · exact isLowL_subWW _ _ _ h (isLowL_lowL _)
  · exact h

theorem synsFold_isLow (canonical : List Char) (syns : List (List Char)) :
    ∀ st : NormSt, IsLowL st.text →
      IsLowL ((syns.foldl (procSyn canonical) st)).text := by
  induction syns with
  | nil => intro st h; exact h
  | cons y ys ih =>
    intro st h
    rw [List.foldl_cons]
    exact ih _ (procSyn_text_isLow canonical st y h)

theorem procEntry_text (st : NormSt) (e : List Char × List (List Char)) :
    (procEntry st e).text = (e.2.foldl (procSyn e.1) st).text := by
  dsimp only [procEntry]
  split
  · rfl
  · rfl

theorem entriesFold_isLow (m : SkillMap) :
    ∀ st : NormSt, IsLowL st.text → IsLowL ((m.foldl procEntry st)).text := by
  induction m with
  | nil => intro st h; exact h
  | cons e es ih =>
    intro st h
    rw [List.foldl_cons]
    apply ih
    rw [procEntry_text]
    exact synsFold_isLow e.1 e.2 st h

theorem normalize_text_fst (t : List Char) (m : SkillMap) :
    (normalize_text t m).1
      = (m.foldl procEntry { text := lowL t, det := ∅ }).text := rfl

theorem normalize_text_snd (t : List Char) (m : SkillMap) :
    (normalize_text t m).2
      = (m.foldl procEntry { text := lowL t, det := ∅ }).det := rfl

theorem normalize_text_isLow (t : List Char) (m : SkillMap) :
    IsLowL (normalize_text t m).1 := by
  rw [normalize_text_fst]
  exact entriesFold_isLow m _ (isLowL_lowL t)

theorem det_procSyn (canonical : List Char) (st : NormSt) (syn : List Char) :
    st.det ⊆ (procSyn canonical st syn).det := by
  simp only [procSyn]
  split
  · exact Finset.subset_insert _ _
  · exact Finset.Subset.refl _

theorem det_synsFold (canonical : List Char) (syns : List (List Char)) :
    ∀ st : NormSt, st.det ⊆ (syns.foldl (procSyn canonical) st).det := by
  induction syns with
  | nil => intro st; exact Finset.Subset.refl _
  | cons y ys ih =>
    intro st
    rw [List.foldl_cons]
    exact (det_procSyn canonical st y).trans (ih _)

theorem det_procEntry (st : NormSt) (e : List Char × List (List Char)) :
    st.det ⊆ (procEntry st e).det := by
  dsimp only [procEntry]
  split
  · exact (det_synsFold e.1 e.2 st).trans (Finset.subset_insert _ _)
  · exact det_synsFold e.1 e.2 st

theorem det_entriesFold (m : SkillMap) :
    ∀ st : NormSt, st.det ⊆ (m.foldl procEntry st).det := by
  induction m with
  | nil => intro st; exact Finset.Subset.refl _
  | cons e es ih =>
    intro st
    rw [List.foldl_cons]
    exact (det_procEntry st e).trans (ih _)

theorem fires_detects (canonical : List Char) (syns : List (List Char)) :
    ∀ st : NormSt, (∃ y ∈ syns, searchWW (lowL y) st.text = true) →
      lowL canonical ∈ (syns.foldl (procSyn canonical) st).det := by
  induction syns with
  | nil =>
    intro st h
    simp at h
  | cons y ys ih =>
    intro st h
    rw [List.foldl_cons]
    by_cases hy : searchWW (lowL y) st.text = true
    · have hmem : lowL canonical ∈ (procSyn canonical st y).det := by
        simp only [procSyn]
        rw [if_pos hy]
        exact Finset.mem_insert_self _ _
      exact det_synsFold canonical ys _ hmem
    · have hst : procSyn canonical st y = st := by
        simp only [procSyn]
        rw [if_neg hy]
      rw [hst]
      apply ih
      obtain ⟨z, hz, hsz⟩ := h
      rcases List.mem_cons.mp hz with rfl | hz
      · exact absurd hsz hy
      · exact ⟨z, hz, hsz⟩

theorem canon_inv (canonical : List Char) (syns : List (List Char)) :
    ∀ st : NormSt,
      (lowL canonical ∈ st.det ∨ searchWW (lowL canonical) st.text = true) →
      (lowL canonical ∈ (syns.foldl (procSyn canonical) st).det ∨
        searchWW (lowL canonical) ((syns.foldl (procSyn canonical) st)).text = true) := by
  induction syns with
  | nil => intro st h; exact h
  | cons y ys ih =>
    intro st h
    rw [List.foldl_cons]
    apply ih
    by_cases hy : searchWW (lowL y) st.text = true
    · left
      simp only [procSyn]
      rw [if_pos hy]
      exact Finset.mem_insert_self _ _
    · have hst : procSyn canonical st y = st := by
        simp only [procSyn]
        rw [if_neg hy]
      rw [hst]
      exact h

theorem canon_detected (st : NormSt) (canonical : List Char)
    (syns : List (List Char))
    (h : lowL canonical ∈ st.det ∨ searchWW (lowL canonical) st.text = true) :
    lowL canonical ∈ (procEntry st (canonical, syns)).det := by
  dsimp only [procEntry]
  rcases canon_inv canonical syns st h with hdet | hsearch
  · split
    · exact Finset.mem_insert_of_mem hdet
    · exact hdet
  · rw [if_pos hsearch]
    exact Finset.mem_insert_self _ _

theorem synsFold_frozen (canonical : List Char) (syns : List (List Char)) :
    ∀ st : NormSt, (∀ y ∈ syns, searchWW (lowL y) st.text = false) →
      syns.foldl (procSyn canonical) st = st := by
  induction syns with
  | nil => intro st _; rfl
  | cons y ys ih =>
    intro st h
    rw [List.foldl_cons]
    have hy : searchWW (lowL y) st.text = false := h y (List.mem_cons_self y ys)
    have hst : procSyn canonical st y = st := by
      simp only [procSyn]
      rw [if_neg (by simp [hy])]
    rw [hst]
    exact ih st (fun z hz => h z (List.mem_cons_of_mem y hz))

theorem entriesFold_id (m : SkillMap) :
    ∀ st : NormSt,
      (∀ e ∈ m, searchWW (lowL e.1) st.text = false ∧
        ∀ s ∈ e.2, searchWW (lowL s) st.text = false) →
      m.foldl procEntry st = st := by
  induction m with
  | nil => intro st _; rfl
  | cons e es ih =>
    intro st h
    obtain ⟨hc, hs⟩ := h e (List.mem_cons_self e es)
    have h1 : e.2.foldl (procSyn e.1) st = st := synsFold_frozen e.1 e.2 st hs
    have h2 : procEntry st e = st := by
      dsimp only [procEntry]
      rw [h1, if_neg (by simp [hc])]
    rw [List.foldl_cons, h2]
    exact ih st (fun f hf => h f (List.mem_cons_of_mem e hf))

theorem entriesFold_text_frozen (m : SkillMap) :
    ∀ st : NormSt, (∀ e ∈ m, ∀ s ∈ e.2, searchWW (lowL s) st.text = false) →
      (m.foldl procEntry st).text = st.text := by
  induction m with
  | nil => intro st _; rfl
  | cons e es ih =>
    intro st h
    have h1 : e.2.foldl (procSyn e.1) st = st :=
      synsFold_frozen e.1 e.2 st (h e (List.mem_cons_self e es))
    have h2 : (procEntry st e).text = st.text := by
      rw [procEntry_text, h1]
    rw [List.foldl_cons]
    have h3 := ih (procEntry st e) (by
      intro f hf s hs
      rw [h2]
      exact h f (List.mem_cons_of_mem e hf) s hs)
    rw [h3, h2]

/-! Claim theorems about the skill normalizer. -/

/-- C1: the claim as frozen is false: detection monotonicity does not hold
for every SkillMap containing S, because an entry processed earlier can
rewrite the text and destroy the whole-word occurrence of a later entry's
synonym.  Concretely, with the map mapping canonical `x` to synonym `a`
and canonical `s` to synonym `a b`, the synonym `a b` of `s` occurs as a
whole word in the input `a b`, yet `s` is not detected: the first entry
rewrites the text to `x b` before the second entry is processed. -/
theorem C1_counterexample :
    searchWW (lowL ("a b".toList)) (lowL ("a b".toList)) = true ∧
    lowL ("s".toList) ∉ (normalize_text ("a b".toList)
      [("x".toList, ["a".toList]), ("s".toList, ["a b".toList])]).2 := by
  constructor
  · decide
  · decide

/-- C1 (amended): if a synonym `s` of canonical skill `S` occurs as a whole
word in the working text at the moment `S`'s entry is reached — that is, in
the normalization of the input by the entries preceding `S` (in particular,
in the lower-cased input itself when `S`'s entry comes first) — then the
lower-cased `S` is in the detected set of the full normalization. -/
theorem C1_monotonicity (t : List Char) (m1 m2 : SkillMap) (S : List Char)
    (syns : List (List Char)) (s : List Char) (hs : s ∈ syns)
    (hfind : searchWW (lowL s) (normalize_text t m1).1 = true) :
    lowL S ∈ (normalize_text t (m1 ++ (S, syns) :: m2)).2 := by
  rw [normalize_text_snd, List.foldl_append, List.foldl_cons]
  apply det_entriesFold m2 _
  dsimp only [procEntry]
  have hmem : lowL S ∈
      (syns.foldl (procSyn S) (m1.foldl procEntry { text := lowL t, det := ∅ })).det :=
    fires_detects S syns _ ⟨s, hs, normalize_text_fst t m1 ▸ hfind⟩
  split
  · exact Finset.mem_insert_of_mem hmem
  · exact hmem

/-- C1 witness: a single-entry map, where the amended hypothesis is just
that the synonym occurs as a whole word in the lower-cased input. -/
theorem C1_witness :
    lowL ("s".toList) ∈
      (normalize_text ("a b".toList) [("s".toList, ["a b".toList])]).2 :=
  C1_monotonicity ("a b".toList) [] [] ("s".toList) ["a b".toList] ("a b".toList)
    (by decide) (by decide)

/-- C2: the claim as frozen is false: normalization is not idempotent on the
text component.  With the single-entry map sending canonical `a plus` to
synonym `a`, the input `a` normalizes to `a plus`, but normalizing
`a plus` again rewrites its whole-word `a` and yields `a plus plus`. -/
theorem C2_counterexample :
    (normalize_text ((normalize_text ("a".toList)
        [("a plus".toList, ["a".toList])]).1) [("a plus".toList, ["a".toList])]).1
      ≠ (normalize_text ("a".toList) [("a plus".toList, ["a".toList])]).1 := by
  decide

/-- C2 (amended): re-normalizing the text output yields the same text
provided no synonym of the map still occurs as a whole word in that output
(the canonical re-check never changes text, only detection).  The detected
set of the second pass may still differ from the first pass's set. -/
theorem C2_idempotence (t : List Char) (m : SkillMap)
    (h : ∀ e ∈ m, ∀ s ∈ e.2, searchWW (lowL s) (normalize_text t m).1 = false) :
    (normalize_text ((normalize_text t m).1) m).1 = (normalize_text t m).1 := by
  have hlow : lowL ((normalize_text t m).1) = (normalize_text t m).1 :=
    lowL_eq_self _ (normalize_text_isLow t m)
  rw [normalize_text_fst ((normalize_text t m).1) m, hlow]
  exact entriesFold_text_frozen m _ (fun e he s hs => h e he s hs)

/-- C2 witness at a concrete map and input. -/
theorem C2_witness :
    (normalize_text ((normalize_text ("a".toList) [("b".toList, ["a".toList])]).1)
        [("b".toList, ["a".toList])]).1
      = (normalize_text ("a".toList) [("b".toList, ["a".toList])]).1 :=
  C2_idempotence ("a".toList) [("b".toList, ["a".toList])] (by decide)

/-- C6: whole-word boundary.  If no synonym and no canonical term of the
map occurs as a whole word in the lower-cased input — in particular when a
synonym occurs only as a substring of a larger word, as `java` inside
`javascript` — then normalization neither detects anything nor changes the
text: the result is exactly the lower-cased input and the empty set. -/
theorem C6_whole_word (t : List Char) (m : SkillMap)
    (h : ∀ e ∈ m, searchWW (lowL e.1) (lowL t) = false ∧
          ∀ s ∈ e.2, searchWW (lowL s) (lowL t) = false) :
    normalize_text t m = (lowL t, ∅) := by
  have h2 : m.foldl procEntry { text := lowL t, det := ∅ }
      = { text := lowL t, det := ∅ } :=
    entriesFold_id m _ h
  show ((m.foldl procEntry { text := lowL t, det := ∅ }).text,
        (m.foldl procEntry { text := lowL t, det := ∅ }).det) = (lowL t, ∅)
  rw [h2]

/-- C6 witness: `java` occurs in `i know javascript` only inside the larger
word `javascript`, so the skill is neither detected nor replaced. -/
theorem C6_witness :
    normalize_text ("i know javascript".toList) [("java".toList, ["java".toList])]
      = (lowL ("i know javascript".toList), ∅) :=
  C6_whole_word ("i know javascript".toList) [("java".toList, ["java".toList])]
    (by decide)

/-- C7: with the skills-map file missing, the safe loader catches the error
and yields the empty map, and normalization with the empty map is identity
on content (the lower-cased input) with empty detection; `parse_jd` never
raises for a missing map. -/
theorem C7_missing_map (t : List Char) :
    normalize_text t (_safe_load_skills_map (Except.error ())) = (lowL t, ∅) ∧
    normalize_text t [] = (lowL t, ∅) := by
  exact ⟨rfl, rfl⟩

/-- C8: the claim as frozen is false: a canonical name occurring as a whole
word in the input need not be detected, because an earlier entry can
rewrite the occurrence away before the canonical term's own entry is
processed.  With the map sending canonical `x` to synonym `s` and also
containing canonical `s`, the input `s` is rewritten to `x` by the first
entry, and `s` is not detected. -/
theorem C8_counterexample :
    searchWW (lowL ("s".toList)) (lowL ("s".toList)) = true ∧
    lowL ("s".toList) ∉ (normalize_text ("s".toList)
      [("x".toList, ["s".toList]), ("s".toList, [])]).2 := by
  constructor
  · decide
  · decide

/-- C8 (amended): if the canonical term `S` occurs as a whole word in the
working text at the moment `S`'s entry is reached — in the normalization of
the input by the entries preceding `S`, in particular in the lower-cased
input itself when `S`'s entry comes first — then the lower-cased `S` is
detected (its own synonyms cannot prevent this: any synonym replacement
re-inserts the canonical term and itself marks `S` detected). -/
theorem C8_canonical (t : List Char) (m1 m2 : SkillMap) (S : List Char)
    (syns : List (List Char))
    (hfind : searchWW (lowL S) (normalize_text t m1).1 = true) :
    lowL S ∈ (normalize_text t (m1 ++ (S, syns) :: m2)).2 := by
  rw [normalize_text_snd, List.foldl_append, List.foldl_cons]
  apply det_entriesFold m2 _
  exact canon_detected _ S syns (Or.inr (normalize_text_fst t m1 ▸ hfind))

/-- C8 witness: a single-entry map whose canonical term appears verbatim. -/
theorem C8_witness :
    lowL ("s".toList) ∈
      (normalize_text ("s".toList) [("s".toList, ([] : List (List Char)))]).2 :=
  C8_canonical ("s".toList) [] [] ("s".toList) [] (by decide)

/-! Claim theorems about the keyword extractor. -/

/-- C5: the keyword list is the frequency table sorted by strictly
descending-compatible order: counts are non-increasing along the sorted
table, every table count is the true frequency of that token in the
stopword-filtered token stream, the table's key order is the first-seen
order of that stream, equal-count entries keep table (hence first-seen)
order — expressed by the position-annotated sort being ordered by
(count descending, original position ascending) and projecting back to the
same sorted table — and the output is truncated to at most `n` entries. -/
theorem C5_keyword_order (t : List Char) (n : Nat) :
    (_top_keywords t n).length ≤ n ∧
    _top_keywords t n
      = ((sortD (fun p => p.2) (freqOf (findallTokens t))).take n).map Prod.fst ∧
    (sortD (fun p => p.2) (freqOf (findallTokens t))).Pairwise
      (fun a b => b.2 ≤ a.2) ∧
    (∀ p ∈ freqOf (findallTokens t),
      p.2 = (nonstopWords (findallTokens t)).count p.1) ∧
    (freqOf (findallTokens t)).map Prod.fst = fsd (nonstopWords (findallTokens t)) ∧
    (sortD (fun q => q.1.2) (enumF 0 (freqOf (findallTokens t)))).map Prod.fst
      = sortD (fun p => p.2) (freqOf (findallTokens t)) ∧
    (sortD (fun q => q.1.2) (enumF 0 (freqOf (findallTokens t)))).Pairwise
      (lexAfter (fun p => p.2)) := by
  refine ⟨?_, rfl, ?_, ?_, ?_, ?_, ?_⟩
  · simp only [_top_keywords, List.length_map, List.length_take]
    exact min_le_left _ _
  · exact sortD_pairwise _ _
  · exact fun p hp => freqOf_counts _ p hp
  · exact keys_freqOf _
  · exact sortD_enum_map (fun p : List Char × Nat => p.2) (freqOf (findallTokens t)) 0
  · exact sortD_enum_lex (fun p : List Char × Nat => p.2) (freqOf (findallTokens t)) 0

/-- C5 witness: with `c++` occurring three times, the table records its
true frequency in the stopword-filtered stream. -/
theorem C5_witness :
    ("c++".toList, 3) ∈
      freqOf (findallTokens ("bbb ccc bbb the the the c++ c++ c++ ab".toList)) ∧
    (3 : Nat) = (nonstopWords
      (findallTokens ("bbb ccc bbb the the the c++ c++ c++ ab".toList))).count
        ("c++".toList) := by
  constructor
  · decide
  · exact (C5_keyword_order ("bbb ccc bbb the the the c++ c++ c++ ab".toList)
      10).2.2.2.1 ("c++".toList, 3) (by decide)

/-- C9: the keyword list never contains duplicates, and every keyword is a
token of the tokenized input text. -/
theorem C9_keywords_nodup (t : List Char) (n : Nat) :
    (_top_keywords t n).Nodup ∧ ∀ w ∈ _top_keywords t n, w ∈ findallTokens t := by
  have hperm : (sortD (fun p => p.2) (freqOf (findallTokens t))).Perm
      (freqOf (findallTokens t)) := sortD_perm _ _
  have hkeysperm : ((sortD (fun p => p.2) (freqOf (findallTokens t))).map
      Prod.fst).Perm ((freqOf (findallTokens t)).map Prod.fst) := hperm.map _
  have hkeysnodup : ((freqOf (findallTokens t)).map Prod.fst).Nodup := by
    rw [keys_freqOf]
    exact fsd_nodup _
  have hsortnodup : ((sortD (fun p => p.2) (freqOf (findallTokens t))).map
      Prod.fst).Nodup := (hkeysperm.nodup_iff).mpr hkeysnodup
  constructor
  · have heq : _top_keywords t n
        = (((sortD (fun p => p.2) (freqOf (findallTokens t))).map Prod.fst).take n) := by
      simp [_top_keywords, List.map_take]
    rw [heq]
    exact hsortnodup.sublist (List.take_sublist n _)
  · intro w hw
    simp only [_top_keywords] at hw
    obtain ⟨p, hp, rfl⟩ := List.mem_map.mp hw
    have hp1 : p ∈ sortD (fun p => p.2) (freqOf (findallTokens t)) :=
      List.mem_of_mem_take hp
    have hp2 : p ∈ freqOf (findallTokens t) := (hperm.mem_iff).mp hp1
    have hw2 : p.1 ∈ (freqOf (findallTokens t)).map Prod.fst :=
      List.mem_map_of_mem Prod.fst hp2
    rw [keys_freqOf] at hw2
    have hw3 : p.1 ∈ nonstopWords (findallTokens t) := fsd_subset _ _ hw2
    exact List.mem_of_mem_filter hw3

/-- C9 witness at a concrete text. -/
theorem C9_witness :
    "bbb".toList ∈ _top_keywords ("bbb ccc bbb".toList) 5 ∧
    "bbb".toList ∈ findallTokens ("bbb ccc bbb".toList) := by
  constructor
  · decide
  · exact (C9_keywords_nodup ("bbb ccc bbb".toList) 5).2 ("bbb".toList) (by decide)

/-! Claim theorems about the snippet retriever. -/

/-- C4: Jaccard bonus bounds of `_overlap_score`.  The tag set is the
candidate's case-folded tag set (the function lower-cases the tags itself;
the caller passes an already lower-cased skill set).  The bonus is always
between 0 and 1; it is 0 whenever either set is empty or the two sets are
disjoint (in particular when both are empty: the zero denominator is
replaced with 1, so no division by zero occurs), and it is 1 whenever the
two sets are identical and non-empty. -/
theorem C4_jaccard_bounds (m : SnipMeta) (skills : Finset String) :
    0 ≤ _overlap_score m skills ∧
    _overlap_score m skills ≤ 1 ∧
    ((m.tags.map String.toLower).toFinset = ∅ → _overlap_score m skills = 0) ∧
    (skills = ∅ → _overlap_score m skills = 0) ∧
    ((m.tags.map String.toLower).toFinset ∩ skills = ∅ →
      _overlap_score m skills = 0) ∧
    ((m.tags.map String.toLower).toFinset = skills → skills ≠ ∅ →
      _overlap_score m skills = 1) ∧
    ((m.tags.map String.toLower).toFinset = ∅ → skills = ∅ →
      _overlap_score m skills = 0) := by
  set T : Finset String := (m.tags.map String.toLower).toFinset with hT
  have hscore : _overlap_score m skills
      = ((T ∩ skills).card : ℚ)
          / (if (T ∪ skills).card = 0 then 1 else ((T ∪ skills).card : ℚ)) := rfl
  have hdenpos : (0 : ℚ)
      < (if (T ∪ skills).card = 0 then 1 else ((T ∪ skills).card : ℚ)) := by
    split
    · norm_num
    next h => exact_mod_cast Nat.pos_of_ne_zero h
  refine ⟨?_, ?_, ?_, ?_, ?_, ?_, ?_⟩
  · rw [hscore]
    exact div_nonneg (by positivity) (le_of_lt hdenpos)
  · rw [hscore, div_le_one hdenpos]
    split
    next h =>
      have hint : (T ∩ skills).card = 0 := by
        have := Finset.card_le_card (Finset.inter_subset_union (s := T) (t := skills))
        omega
      rw [hint]
      norm_num
    next h =>
      exact_mod_cast Finset.card_le_card
        (Finset.inter_subset_union (s := T) (t := skills))
  · intro h0
    rw [hscore, h0]
    simp
  · intro h0
    rw [hscore, h0]
    simp
  · intro h0
    rw [hscore, h0]
    simp
  · intro heq hne
    rw [hscore, heq]
    have hc : skills.card ≠ 0 := fun h0 => hne (Finset.card_eq_zero.mp h0)
    rw [Finset.inter_self, Finset.union_self, if_neg hc]
    exact div_self (by exact_mod_cast hc)
  · intro h0 _
    rw [hscore, h0]
    simp

/-- C4 witness: identical non-empty case-folded sets give bonus 1. -/
theorem C4_witness : _overlap_score ⟨["Java"], ""⟩ {"java"} = 1 := by
  refine (C4_jaccard_bounds ⟨["Java"], ""⟩ {"java"}).2.2.2.2.2.1 ?_ (by decide)
  show ((["Java"] : List String).map String.toLower).toFinset = {"java"}
  have hl : ∀ s : String, s.toLower = ⟨s.1.map Char.toLower⟩ := fun s =>
    String.map_eq Char.toLower s
  rw [List.map_cons, List.map_nil, hl]
  decide

/-- C3: the retriever returns at most `top_k` documents; the returned list
is exactly the first `top_k` document components of the re-ranked candidate
list, which is sorted by non-increasing composite score; and the sort is
stable: annotating candidates with their index-return positions and sorting
yields a list ordered by (score descending, original position ascending)
that projects back to the very ranked list used. -/
theorem C3_topk_sorted (res : QueryRes) (jd_skills : Option (Finset String))
    (top_k : Nat) :
    (query_snippets res jd_skills top_k).length ≤ top_k ∧
    query_snippets res jd_skills top_k
      = ((rankedOf res jd_skills).take top_k).map (fun b => b.1) ∧
    (rankedOf res jd_skills).Pairwise (fun a b => b.2.2 ≤ a.2.2) ∧
    (sortD (fun q => q.1.2.2) (enumF 0 (boostedOf res jd_skills))).map Prod.fst
      = rankedOf res jd_skills ∧
    (sortD (fun q => q.1.2.2) (enumF 0 (boostedOf res jd_skills))).Pairwise
      (lexAfter (fun b => b.2.2)) := by
  refine ⟨?_, rfl, ?_, ?_, ?_⟩
  · simp only [query_snippets, List.length_map, List.length_take]
    exact min_le_left _ _
  · exact sortD_pairwise _ _
  · exact sortD_enum_map (fun b : String × SnipMeta × ℚ => b.2.2)
      (boostedOf res jd_skills) 0
  · exact sortD_enum_lex (fun b : String × SnipMeta × ℚ => b.2.2)
      (boostedOf res jd_skills) 0

/-- C10: passing no skill set is the same as passing the empty skill set
(`jd_skills or set()` in the source), every candidate's overlap bonus is
then 0, and the composite scores collapse to the distance-based base
scores alone. -/
theorem C10_none_skills (res : QueryRes) (top_k : Nat) :
    query_snippets res none top_k = query_snippets res (some ∅) top_k ∧
    (∀ m : SnipMeta, _overlap_score m (skillsArg none) = 0) ∧
    boostedOf res none
      = (res.docs.zip (res.metas.zip (baseScores res))).map
          (fun z => (z.1, z.2.1, z.2.2)) := by
  have hov : ∀ m : SnipMeta, _overlap_score m (skillsArg none) = 0 := by
    intro m
    simp [_overlap_score, skillsArg]
  refine ⟨rfl, hov, ?_⟩
  unfold boostedOf
  apply List.map_congr_left
  intro z _
  rw [hov]
  norm_num

end CVSpec
